import Mathlib

/-!
Verification of the memory-layout engine of c-memory-padding-visualization.

The repository's `src/main.c` is a concrete demonstration: it declares
`name_t` (two pointers: 16 bytes, alignment 8) and `human_t`
(char / int / double / name_t) and lets the C compiler place the fields,
reading the placements back with `offsetof`/`sizeof`/`alignof`; the
`visualize` function paints a 32-byte character buffer with one marker
per byte.  The layout engine itself (`compute_layout`, `render`) is
specified but has no code under `src/`, so those functions are modelled
from the specification text and the demo structs are embedded as the
concrete instance the source evaluates.
-/

namespace MemLayout

/-- A field descriptor: name, one-character marker, alignment requirement
and size in bytes (FieldSpec of the data model). -/
structure FieldSpec where
  name : String
  marker : Char
  alignment : Nat
  size : Nat
deriving DecidableEq, Repr, Inhabited

/-- A field placed at a byte offset (PlacedField of the data model). -/
structure PlacedField where
  spec : FieldSpec
  offset : Nat
deriving DecidableEq, Repr, Inhabited

/-- Result of the layout calculator (LayoutResult of the data model). -/
structure LayoutResult where
  fields : List PlacedField
  total_size : Nat
  total_alignment : Nat
deriving DecidableEq, Repr

/-- `ceil(c / a)` on naturals (for `a ≥ 1`). -/
def ceilDiv (c a : Nat) : Nat := (c + a - 1) / a

/-- Modelled from the spec: `offset = ceil(cursor / alignment) * alignment`,
rounding the cursor up to the next multiple of the alignment. -/
def roundUp (c a : Nat) : Nat := ceilDiv c a * a

/-- One step of the placement fold: round the cursor up to the field's
alignment to obtain its offset, then advance the cursor by its size. -/
def layoutStep (st : Nat × List PlacedField) (f : FieldSpec) : Nat × List PlacedField :=
  let off := roundUp st.1 f.alignment
  (off + f.size, st.2 ++ [{ spec := f, offset := off }])

/-- Modelled from the spec: `compute_layout` is missing from `src/` (the C
compiler performs placement natively in `main.c`).  Sequential placement as
a left fold with a cursor starting at 0; `total_alignment` is the maximum
field alignment (1 when the list is empty) and `total_size` is the final
cursor rounded up to `total_alignment`. -/
def compute_layout (fields : List FieldSpec) : LayoutResult :=
  let st := fields.foldl layoutStep (0, [])
  let ta := fields.foldl (fun a f => max a f.alignment) 1
  { fields := st.2, total_size := roundUp st.1 ta, total_alignment := ta }

/-- Recursive characterization of the placement fold: the placed fields. -/
def place (c : Nat) : List FieldSpec → List PlacedField
  | [] => []
  | f :: fs =>
    { spec := f, offset := roundUp c f.alignment } :: place (roundUp c f.alignment + f.size) fs

/-- Recursive characterization of the placement fold: the final cursor. -/
def finalCursor (c : Nat) : List FieldSpec → Nat
  | [] => c
  | f :: fs => finalCursor (roundUp c f.alignment + f.size) fs

/-- The offset sequence exactly as the spec's sentence words it: round the
cursor up to the field's alignment, emit that offset, advance by the size. -/
def specOffsets (c : Nat) : List FieldSpec → List Nat
  | [] => []
  | f :: fs => roundUp c f.alignment :: specOffsets (roundUp c f.alignment + f.size) fs

theorem foldl_layoutStep (fs : List FieldSpec) :
    ∀ (c : Nat) (acc : List PlacedField),
      fs.foldl layoutStep (c, acc) = (finalCursor c fs, acc ++ place c fs) := by
  induction fs with
  | nil => intro c acc; simp [finalCursor, place]
  | cons f fs ih =>
    intro c acc
    simp only [List.foldl_cons, layoutStep, finalCursor, place, ih]
    simp

theorem compute_layout_fields (fields : List FieldSpec) :
    (compute_layout fields).fields = place 0 fields := by
  simp [compute_layout, foldl_layoutStep]

theorem compute_layout_total_size (fields : List FieldSpec) :
    (compute_layout fields).total_size
      = roundUp (finalCursor 0 fields) (fields.foldl (fun a f => max a f.alignment) 1) := by
  simp [compute_layout, foldl_layoutStep]

theorem compute_layout_total_alignment (fields : List FieldSpec) :
    (compute_layout fields).total_alignment
      = fields.foldl (fun a f => max a f.alignment) 1 := by
  simp [compute_layout]

/- Arithmetic facts about `roundUp`. -/

theorem le_roundUp (c a : Nat) (ha : 0 < a) : c ≤ roundUp c a := by
  unfold roundUp ceilDiv
  have h1 := Nat.div_add_mod (c + a - 1) a
  have h2 := Nat.mod_lt (c + a - 1) ha
  rw [Nat.mul_comm]
  generalize hq : a * ((c + a - 1) / a) = t at *
  omega

theorem roundUp_lt_add (c a : Nat) (ha : 0 < a) : roundUp c a < c + a := by
  unfold roundUp ceilDiv
  have h1 := Nat.div_add_mod (c + a - 1) a
  rw [Nat.mul_comm]
  generalize hq : a * ((c + a - 1) / a) = t at *
  omega

theorem roundUp_mod (c a : Nat) : roundUp c a % a = 0 :=
  Nat.mul_mod_left _ _

theorem roundUp_min (c a m : Nat) (ha : 0 < a) (hm : c ≤ m) (hmod : m % a = 0) :
    roundUp c a ≤ m := by
  obtain ⟨k, rfl⟩ : ∃ k, m = a * k :=
    ⟨m / a, (Nat.mul_div_cancel' (Nat.dvd_of_mod_eq_zero hmod)).symm⟩
  unfold roundUp ceilDiv
  rw [Nat.mul_comm]
  have hdiv : (c + a - 1) / a ≤ k := (Nat.div_le_iff_le_mul_add_pred ha).mpr (by omega)
  exact Nat.mul_le_mul_left a hdiv

/- Structure of the placed-field list. -/

theorem place_map_spec (fs : List FieldSpec) :
    ∀ c, (place c fs).map PlacedField.spec = fs := by
  induction fs with
  | nil => intro c; simp [place]
  | cons f fs ih => intro c; simp [place, ih]

theorem place_map_offset (fs : List FieldSpec) :
    ∀ c, (place c fs).map PlacedField.offset = specOffsets c fs := by
  induction fs with
  | nil => intro c; simp [place, specOffsets]
  | cons f fs ih => intro c; simp [place, specOffsets, ih]

theorem place_offset_mod (fs : List FieldSpec) :
    ∀ c, ∀ p ∈ place c fs, p.offset % p.spec.alignment = 0 := by
  induction fs with
  | nil => intro c p hp; simp [place] at hp
  | cons f fs ih =>
    intro c p hp
    simp only [place, List.mem_cons] at hp
    rcases hp with rfl | hp
    · exact roundUp_mod _ _
    · exact ih _ p hp

/-- Adjacency relation between consecutive placed fields, as the spec's
monotonicity property states it: no overlap, the gap actually aligns the
next field's offset (`q.offset` is a multiple of its alignment), the gap is
below the next field's alignment, and the gap is the least non-negative
padding that makes the next offset such a multiple. -/
def adjacentOk (p q : PlacedField) : Prop :=
  p.offset + p.spec.size ≤ q.offset ∧
  q.offset % q.spec.alignment = 0 ∧
  q.offset - (p.offset + p.spec.size) < q.spec.alignment ∧
  ∀ g, (p.offset + p.spec.size + g) % q.spec.alignment = 0 →
    q.offset - (p.offset + p.spec.size) ≤ g

theorem place_chain_adjacent (fs : List FieldSpec)
    (hpos : ∀ f ∈ fs, 0 < f.alignment) :
    ∀ c, List.Chain' adjacentOk (place c fs) := by
  induction fs with
  | nil => intro c; simp [place]
  | cons f fs ih =>
    intro c
    have hpos' : ∀ g ∈ fs, 0 < g.alignment := fun g hg => hpos g (List.mem_cons_of_mem _ hg)
    cases fs with
    | nil => simp [place]
    | cons g gs =>
      rw [place, place]
      rw [List.chain'_cons]
      constructor
      · have hga : 0 < g.alignment := hpos g (by simp)
        unfold adjacentOk
        dsimp only
        set e := roundUp c f.alignment + f.size with he
        refine ⟨le_roundUp e g.alignment hga, roundUp_mod e g.alignment, ?_, ?_⟩
        · have := roundUp_lt_add e g.alignment hga
          omega
        · intro gap hmod
          have := roundUp_min e g.alignment (e + gap) hga (by omega) hmod
          omega
      · have := ih hpos' (roundUp c f.alignment + f.size)
        rw [place] at this
        exact this

theorem finalCursor_last (fs : List FieldSpec) :
    ∀ c p, (place c fs).getLast? = some p →
      finalCursor c fs = p.offset + p.spec.size := by
  induction fs with
  | nil => intro c p hp; simp [place] at hp
  | cons f fs ih =>
    intro c p hp
    cases fs with
    | nil =>
      simp [place, List.getLast?] at hp
      subst hp
      simp [finalCursor]
    | cons g gs =>
      rw [place, place, List.getLast?_cons_cons] at hp
      rw [← place] at hp
      rw [finalCursor]
      exact ih _ p hp

/- The running maximum computing `total_alignment`. -/

theorem foldl_max_le_init (fs : List FieldSpec) :
    ∀ a, a ≤ fs.foldl (fun x f => max x f.alignment) a := by
  induction fs with
  | nil => intro a; simp
  | cons f fs ih =>
    intro a
    exact le_trans (le_max_left a f.alignment) (ih _)

theorem foldl_max_mem_le (fs : List FieldSpec) :
    ∀ a, ∀ f ∈ fs, f.alignment ≤ fs.foldl (fun x g => max x g.alignment) a := by
  induction fs with
  | nil => intro a f hf; simp at hf
  | cons g gs ih =>
    intro a f hf
    rcases List.mem_cons.mp hf with rfl | hf
    · exact le_trans (le_max_right a f.alignment) (foldl_max_le_init gs _)
    · exact ih _ f hf

theorem foldl_max_attained (fs : List FieldSpec) :
    ∀ a, fs.foldl (fun x f => max x f.alignment) a = a ∨
      ∃ f ∈ fs, fs.foldl (fun x g => max x g.alignment) a = f.alignment := by
  induction fs with
  | nil => intro a; left; rfl
  | cons g gs ih =>
    intro a
    rcases ih (max a g.alignment) with h | ⟨f, hf, h⟩
    · by_cases hga : g.alignment ≤ a
      · left; rw [List.foldl_cons, h, max_eq_left hga]
      · right
        exact ⟨g, by simp, by rw [List.foldl_cons, h, max_eq_right (le_of_not_le hga)]⟩
    · right
      exact ⟨f, List.mem_cons_of_mem _ hf, by rw [List.foldl_cons, h]⟩

/- ------------------------------------------------------------------ -/
/- The layout renderer.                                               -/
/- ------------------------------------------------------------------ -/

/-- The padding marker: `main.c` prints `'P'` for every padding byte. -/
def padMarker : Char := 'P'

/-- `covers p i`: byte index `i` lies in the tagged range
`[offset, offset + size)` of the placed field `p`. -/
def covers (p : PlacedField) (i : Nat) : Prop :=
  p.offset ≤ i ∧ i < p.offset + p.spec.size

instance (p : PlacedField) (i : Nat) : Decidable (covers p i) := by
  unfold covers; infer_instance

/-- Modelled from the spec: tag the bytes `[offset, offset + size)` of the
byte map with the field's marker, leaving every other slot unchanged. -/
def tagField (m : List Char) (p : PlacedField) : List Char :=
  (List.range m.length).map (fun i => if covers p i then p.spec.marker else m.getD i padMarker)

/-- Modelled from the spec: the ByteMap — a sequence of length `total_size`
default-tagged as padding, in which each placed field tags its byte range. -/
def byteMap (r : LayoutResult) : List Char :=
  r.fields.foldl tagField (List.replicate r.total_size padMarker)

/-- Whether the tagged byte ranges of two placed fields intersect. -/
def rangesOverlap (p q : PlacedField) : Bool :=
  decide (max p.offset q.offset < min (p.offset + p.spec.size) (q.offset + q.spec.size))

/-- Whether some pair of placed fields in the list has intersecting ranges. -/
def anyOverlap : List PlacedField → Bool
  | [] => false
  | p :: ps => ps.any (fun q => rangesOverlap p q) || anyOverlap ps

/-- Modelled from the spec: the renderer's error taxonomy (the repository's
`visualize` renders one fixed struct and has no error paths in `src/`). -/
inductive RenderError where
  | OverlapError
  | CapacityError
deriving DecidableEq, Repr

/-- Modelled from the spec: `render` is missing from `src/` (`visualize` in
`main.c` renders one fixed struct into a fixed 32-byte buffer).  Given a
configured maximum diagram width it first reports a CapacityError when
`total_size` exceeds the width — §5 requires rejecting oversized inputs
rather than allocating the buffer — then fails fast with an OverlapError
when two tagged ranges intersect, and otherwise returns the complete
ByteMap (the tag line of the diagram, one character per byte). -/
def render (maxWidth : Nat) (r : LayoutResult) : Except RenderError (List Char) :=
  if r.total_size > maxWidth then .error .CapacityError
  else if anyOverlap r.fields then .error .OverlapError
  else .ok (byteMap r)

/-- A well-formed renderer input, as §4.2 assumes of §4.1's output: every
range fits in `total_size`, no two ranges intersect, the marker characters
are pairwise distinct and none of them is the padding marker. -/
def ValidLayout (r : LayoutResult) : Prop :=
  (∀ p ∈ r.fields, p.offset + p.spec.size ≤ r.total_size) ∧
  List.Pairwise (fun p q => rangesOverlap p q = false) r.fields ∧
  (r.fields.map (fun p => p.spec.marker)).Nodup ∧
  (∀ p ∈ r.fields, p.spec.marker ≠ padMarker)

instance (r : LayoutResult) : Decidable (ValidLayout r) := by
  unfold ValidLayout; infer_instance

/- ------------------------------------------------------------------ -/
/- The concrete records of `main.c`.                                  -/
/- ------------------------------------------------------------------ -/

/-- The fields of `human_t` in declaration order, with the sizes and
alignments of the program's 64-bit model (`char` 1/1, `int` 4/4,
`double` 8/8, `name_t` 16/8) and the markers `visualize` prints. -/
def humanFields : List FieldSpec :=
  [ { name := "first_initial", marker := 'F', alignment := 1, size := 1 },
    { name := "age", marker := 'A', alignment := 4, size := 4 },
    { name := "height", marker := 'H', alignment := 8, size := 8 },
    { name := "name", marker := 'N', alignment := 8, size := 16 } ]

/-- The same four fields in reversed declaration order (the spec's
reordering scenario). -/
def reversedFields : List FieldSpec := humanFields.reverse

/-- The layout the engine computes for `human_t`. -/
def humanLayout : LayoutResult := compute_layout humanFields

/- ------------------------------------------------------------------ -/
/- Pointwise description of the ByteMap.                              -/
/- ------------------------------------------------------------------ -/

/-- The tag of byte `i`: the marker of the (unique, under validity) field
covering `i`, or the padding marker if no field covers it. -/
def tagAt (fields : List PlacedField) (i : Nat) : Char :=
  match fields.find? (fun p => decide (covers p i)) with
  | some p => p.spec.marker
  | none => padMarker

theorem tagField_length (m : List Char) (p : PlacedField) :
    (tagField m p).length = m.length := by
  simp [tagField]

theorem tagField_getD (m : List Char) (p : PlacedField) (i : Nat) (hi : i < m.length) :
    (tagField m p).getD i padMarker
      = if covers p i then p.spec.marker else m.getD i padMarker := by
  have hlen : i < (tagField m p).length := by simpa [tagField_length] using hi
  rw [List.getD_eq_getElem _ _ hlen]
  simp [tagField]

theorem foldl_tagField_length (fs : List PlacedField) :
    ∀ m : List Char, (fs.foldl tagField m).length = m.length := by
  induction fs with
  | nil => intro m; rfl
  | cons p ps ih => intro m; rw [List.foldl_cons, ih, tagField_length]

theorem byteMap_length (r : LayoutResult) : (byteMap r).length = r.total_size := by
  simp [byteMap, foldl_tagField_length]

theorem rangesOverlap_of_covers {p q : PlacedField} {i : Nat}
    (hp : covers p i) (hq : covers q i) : rangesOverlap p q = true := by
  unfold covers at hp hq
  unfold rangesOverlap
  simp only [decide_eq_true_eq]
  omega

theorem foldl_tagField_getD (fs : List PlacedField) :
    ∀ (m : List Char) (i : Nat), i < m.length →
      List.Pairwise (fun p q => rangesOverlap p q = false) fs →
      (fs.foldl tagField m).getD i padMarker
        = match fs.find? (fun p => decide (covers p i)) with
          | some p => p.spec.marker
          | none => m.getD i padMarker := by
  induction fs with
  | nil => intro m i hi _; simp
  | cons p ps ih =>
    intro m i hi hpw
    obtain ⟨hdisj, hpw'⟩ := List.pairwise_cons.mp hpw
    rw [List.foldl_cons, ih (tagField m p) i (by simpa [tagField_length] using hi) hpw']
    by_cases hc : covers p i
    · rw [List.find?_cons_of_pos _ (by simpa using hc)]
      cases hq : ps.find? (fun q => decide (covers q i)) with
      | none =>
        dsimp only
        rw [tagField_getD m p i hi, if_pos hc]
      | some q =>
        exfalso
        have hqmem := List.mem_of_find?_eq_some hq
        have hqcov : covers q i := by simpa using List.find?_some hq
        have hfalse := hdisj q hqmem
        rw [rangesOverlap_of_covers hc hqcov] at hfalse
        exact Bool.noConfusion hfalse
    · rw [List.find?_cons_of_neg _ (by simpa using hc)]
      cases hq : ps.find? (fun q => decide (covers q i)) with
      | none =>
        dsimp only
        rw [tagField_getD m p i hi, if_neg hc]
      | some q => dsimp only

theorem getD_replicate_pad (n i : Nat) :
    (List.replicate n padMarker).getD i padMarker = padMarker := by
  by_cases hi : i < n
  · rw [List.getD_eq_getElem _ _ (by simpa using hi), List.getElem_replicate]
  · rw [List.getD_eq_default _ _ (by simpa using hi)]

theorem byteMap_getD (r : LayoutResult)
    (hpw : List.Pairwise (fun p q => rangesOverlap p q = false) r.fields)
    (i : Nat) (hi : i < r.total_size) :
    (byteMap r).getD i padMarker = tagAt r.fields i := by
  unfold byteMap tagAt
  rw [foldl_tagField_getD r.fields _ i (by simpa using hi) hpw]
  cases h : r.fields.find? (fun p => decide (covers p i)) with
  | none => simp [getD_replicate_pad]
  | some p => simp

theorem byteMap_eq_map_tagAt (r : LayoutResult)
    (hpw : List.Pairwise (fun p q => rangesOverlap p q = false) r.fields) :
    byteMap r = (List.range r.total_size).map (tagAt r.fields) := by
  apply List.ext_getElem (by simp [byteMap_length])
  intro i h1 h2
  have hi : i < r.total_size := by simpa [byteMap_length] using h1
  have hgd := byteMap_getD r hpw i hi
  rw [List.getD_eq_getElem _ _ h1] at hgd
  rw [hgd, List.getElem_map, List.getElem_range]

theorem covers_unique (r : LayoutResult) (h : ValidLayout r) {p q : PlacedField}
    (hp : p ∈ r.fields) (hq : q ∈ r.fields) {i : Nat}
    (hcp : covers p i) (hcq : covers q i) : p = q := by
  by_contra hne
  have hsym : Symmetric (fun p q : PlacedField => rangesOverlap p q = false) := by
    intro x y hxy
    unfold rangesOverlap at hxy ⊢
    simp only [decide_eq_false_iff_not] at hxy ⊢
    omega
  have hfalse := h.2.1.forall hsym hp hq hne
  rw [rangesOverlap_of_covers hcp hcq] at hfalse
  exact Bool.noConfusion hfalse

theorem tagAt_eq_marker (r : LayoutResult) (h : ValidLayout r) {p : PlacedField}
    (hp : p ∈ r.fields) {i : Nat} (hc : covers p i) :
    tagAt r.fields i = p.spec.marker := by
  unfold tagAt
  cases hf : r.fields.find? (fun q => decide (covers q i)) with
  | none =>
    exact absurd (by simpa using List.find?_eq_none.mp hf p hp) (by simpa using hc)
  | some q =>
    have hqmem := List.mem_of_find?_eq_some hf
    have hqc : covers q i := by simpa using List.find?_some hf
    rw [covers_unique r h hqmem hp hqc hc]

theorem tagAt_eq_pad (fields : List PlacedField) {i : Nat}
    (h : ∀ p ∈ fields, ¬ covers p i) : tagAt fields i = padMarker := by
  unfold tagAt
  rw [List.find?_eq_none.mpr (by intro p hp; simpa using h p hp)]

theorem countP_range_window (a b n : Nat) :
    (List.range n).countP (fun i => decide (a ≤ i ∧ i < b)) = min b n - min a n := by
  induction n with
  | zero => simp
  | succ n ih =>
    rw [List.range_succ, List.countP_append, ih]
    by_cases h : a ≤ n ∧ n < b
    · simp only [List.countP_cons, List.countP_nil, decide_eq_true_eq, if_pos h]
      omega
    · simp only [List.countP_cons, List.countP_nil, decide_eq_true_eq, if_neg h]
      omega

theorem byteMap_count (r : LayoutResult) (h : ValidLayout r) {p : PlacedField}
    (hp : p ∈ r.fields) :
    (byteMap r).count p.spec.marker = p.spec.size := by
  rw [byteMap_eq_map_tagAt r h.2.1, List.count_eq_countP, List.countP_map]
  have hcong : (List.range r.total_size).countP ((fun x => x == p.spec.marker) ∘ tagAt r.fields)
      = (List.range r.total_size).countP (fun i => decide (covers p i)) := by
    apply List.countP_congr
    intro i hi
    simp only [Function.comp_apply, beq_iff_eq, decide_eq_true_eq]
    constructor
    · intro htag
      by_contra hnc
      by_cases hcov : ∃ q ∈ r.fields, covers q i
      · obtain ⟨q, hqm, hqc⟩ := hcov
        rw [tagAt_eq_marker r h hqm hqc] at htag
        have hqp : q = p := List.inj_on_of_nodup_map h.2.2.1 hqm hp htag
        subst hqp
        exact hnc hqc
      · push_neg at hcov
        rw [tagAt_eq_pad r.fields hcov] at htag
        exact h.2.2.2 p hp htag.symm
    · intro hc
      exact tagAt_eq_marker r h hp hc
  rw [hcong]
  unfold covers
  rw [countP_range_window]
  have hfit := h.1 p hp
  omega

/- ------------------------------------------------------------------ -/
/- The `visualize` function of `main.c`.                               -/
/- ------------------------------------------------------------------ -/

/-- A C loop `for (i = lo; i < hi; i++) m[i] = ch;` over a byte buffer. -/
def setRange (m : List Char) (lo hi : Nat) (ch : Char) : List Char :=
  (List.range (hi - lo)).foldl (fun acc k => acc.set (lo + k) ch) m

/-- The 32-byte buffer `mem` exactly as `visualize` fills it: zeroed by its
initializer, set to `'.'` over `[0, sz)`, the four fields marked `'F'`,
`'A'`, `'H'`, `'N'` over their ranges (`mem[oF] = 'F'` is the single-byte
case), then every remaining `'.'` replaced by `'P'`. -/
def visualizeMem : List Char :=
  let sz := humanLayout.total_size
  let offs := humanLayout.fields.map PlacedField.offset
  let mem0 := List.replicate 32 (Char.ofNat 0)
  let mem1 := setRange mem0 0 sz '.'
  let mem2 := mem1.set (offs.getD 0 0) 'F'
  let mem3 := setRange mem2 (offs.getD 1 0) (offs.getD 1 0 + 4) 'A'
  let mem4 := setRange mem3 (offs.getD 2 0) (offs.getD 2 0 + 8) 'H'
  let mem5 := setRange mem4 (offs.getD 3 0) (offs.getD 3 0 + 16) 'N'
  (List.range sz).foldl
    (fun acc i => if acc.getD i (Char.ofNat 0) = '.' then acc.set i 'P' else acc) mem5

/-- Every buffer index `visualize` writes, in program order: the `'.'`
initialization loop over `[0, sz)`, the single write at `oF`, the three
field-marking loops, and the padding sweep over `[0, sz)`. -/
def visualizeWriteIndices : List Nat :=
  let sz := humanLayout.total_size
  let offs := humanLayout.fields.map PlacedField.offset
  (List.range sz) ++ [offs.getD 0 0]
    ++ ((List.range 4).map (fun i => offs.getD 1 0 + i))
    ++ ((List.range 8).map (fun i => offs.getD 2 0 + i))
    ++ ((List.range 16).map (fun i => offs.getD 3 0 + i))
    ++ (List.range sz)

/- ------------------------------------------------------------------ -/
/- Remaining helper lemmas.                                           -/
/- ------------------------------------------------------------------ -/

theorem align_pos_of_pow2 (fields : List FieldSpec)
    (hA : ∀ f ∈ fields, ∃ k : Nat, f.alignment = 2 ^ k) :
    ∀ f ∈ fields, 0 < f.alignment := by
  intro f hf
  obtain ⟨k, hk⟩ := hA f hf
  rw [hk]
  exact pow_pos (by decide) k

theorem anyOverlap_eq_false_iff (l : List PlacedField) :
    anyOverlap l = false ↔ List.Pairwise (fun p q => rangesOverlap p q = false) l := by
  induction l with
  | nil => simp [anyOverlap]
  | cons p ps ih => simp [anyOverlap, List.pairwise_cons, ih, List.any_eq_false]

/-- A layout with two intersecting tagged ranges and a `total_size` larger
than the demo's 32-column diagram width. -/
def overlapLayout : LayoutResult :=
  { fields :=
      [ { spec := { name := "a", marker := 'A', alignment := 1, size := 8 }, offset := 0 },
        { spec := { name := "b", marker := 'B', alignment := 1, size := 8 }, offset := 4 } ],
    total_size := 100, total_alignment := 1 }

/-- The same two intersecting ranges with a `total_size` that fits the
32-column diagram width. -/
def overlapSmall : LayoutResult :=
  { fields :=
      [ { spec := { name := "a", marker := 'A', alignment := 1, size := 8 }, offset := 0 },
        { spec := { name := "b", marker := 'B', alignment := 1, size := 8 }, offset := 4 } ],
    total_size := 12, total_alignment := 1 }

theorem humanFields_pow2 : ∀ f ∈ humanFields, ∃ k : Nat, f.alignment = 2 ^ k := by
  intro f hf
  simp only [humanFields, List.mem_cons, List.not_mem_nil, or_false] at hf
  rcases hf with rfl | rfl | rfl | rfl
  · exact ⟨0, rfl⟩
  · exact ⟨2, rfl⟩
  · exact ⟨3, rfl⟩
  · exact ⟨3, rfl⟩

/- ------------------------------------------------------------------ -/
/- The claims.                                                        -/
/- ------------------------------------------------------------------ -/

/-- C1: for every field list whose alignments are powers of two,
`compute_layout` places the fields by a left fold with a cursor starting
at 0 — the placed fields carry the input specs in input order, and the
offset sequence is exactly the rounding recurrence `specOffsets`: each
offset is the cursor rounded up to the field's alignment
(`ceil(cursor / alignment) * alignment`), the cursor then advancing by the
field's size. -/
theorem claim_C1 (fields : List FieldSpec)
    (_hA : ∀ f ∈ fields, ∃ k : Nat, f.alignment = 2 ^ k) :
    (compute_layout fields).fields.map PlacedField.spec = fields ∧
    (compute_layout fields).fields.map PlacedField.offset = specOffsets 0 fields := by
  rw [compute_layout_fields]
  exact ⟨place_map_spec fields 0, place_map_offset fields 0⟩

/-- C1 witness: the fold applied to the `human_t` field list. -/
theorem claim_C1_w :
    (compute_layout humanFields).fields.map PlacedField.spec = humanFields ∧
    (compute_layout humanFields).fields.map PlacedField.offset = specOffsets 0 humanFields :=
  claim_C1 humanFields humanFields_pow2

/-- C2: the `human_t` field order yields offsets 0, 4, 8, 16 and total
size 32; the reversed order yields offsets 0, 16, 24, 28 and total
size 32. -/
theorem claim_C2 :
    (compute_layout humanFields).fields.map PlacedField.offset = [0, 4, 8, 16] ∧
    (compute_layout humanFields).total_size = 32 ∧
    (compute_layout reversedFields).fields.map PlacedField.offset = [0, 16, 24, 28] ∧
    (compute_layout reversedFields).total_size = 32 := by
  decide

/-- C3: every field placed by `compute_layout` sits at an offset that is an
exact multiple of its alignment. -/
theorem claim_C3 (fields : List FieldSpec)
    (_hA : ∀ f ∈ fields, ∃ k : Nat, f.alignment = 2 ^ k) :
    ∀ p ∈ (compute_layout fields).fields, p.offset % p.spec.alignment = 0 := by
  rw [compute_layout_fields]
  exact place_offset_mod fields 0

/-- C3 witness: the alignment invariant at the `age` field of `human_t`. -/
theorem claim_C3_w :
    (humanLayout.fields.getD 1 default).offset
      % (humanLayout.fields.getD 1 default).spec.alignment = 0 :=
  claim_C3 humanFields humanFields_pow2 (humanLayout.fields.getD 1 default) (by decide)

/-- C4: consecutive placed fields never overlap, the next field's offset is
a multiple of its alignment, the gap between one field's end and the next
field's offset is strictly below the next field's alignment, and that gap
is the minimal non-negative padding that makes the next offset a multiple
of its alignment. -/
theorem claim_C4 (fields : List FieldSpec)
    (hA : ∀ f ∈ fields, ∃ k : Nat, f.alignment = 2 ^ k) :
    List.Chain' adjacentOk (compute_layout fields).fields := by
  rw [compute_layout_fields]
  exact place_chain_adjacent fields (align_pos_of_pow2 fields hA) 0

/-- C4 witness: the adjacency invariants on the `human_t` layout. -/
theorem claim_C4_w : List.Chain' adjacentOk (compute_layout humanFields).fields :=
  claim_C4 humanFields humanFields_pow2

/-- C5: `total_alignment` is the maximum field alignment (at least 1,
exactly 1 for the empty list, attained by some field otherwise),
`total_size` is a multiple of `total_alignment`, and `total_size` is the
smallest such multiple that is at least the end offset of the last-placed
field. -/
theorem claim_C5 (fields : List FieldSpec)
    (hA : ∀ f ∈ fields, ∃ k : Nat, f.alignment = 2 ^ k) :
    1 ≤ (compute_layout fields).total_alignment ∧
    (∀ f ∈ fields, f.alignment ≤ (compute_layout fields).total_alignment) ∧
    (fields = [] → (compute_layout fields).total_alignment = 1) ∧
    (fields ≠ [] → ∃ f ∈ fields, (compute_layout fields).total_alignment = f.alignment) ∧
    (compute_layout fields).total_size % (compute_layout fields).total_alignment = 0 ∧
    (∀ p, (compute_layout fields).fields.getLast? = some p →
      p.offset + p.spec.size ≤ (compute_layout fields).total_size ∧
      ∀ m, p.offset + p.spec.size ≤ m →
        m % (compute_layout fields).total_alignment = 0 →
        (compute_layout fields).total_size ≤ m) := by
  have hta := compute_layout_total_alignment fields
  have hts := compute_layout_total_size fields
  have hpos1 : 1 ≤ (compute_layout fields).total_alignment := by
    rw [hta]; exact foldl_max_le_init fields 1
  refine ⟨hpos1, ?_, ?_, ?_, ?_, ?_⟩
  · intro f hf; rw [hta]; exact foldl_max_mem_le fields 1 f hf
  · intro h; subst h; rfl
  · intro hne
    rcases foldl_max_attained fields 1 with h | ⟨f, hf, h⟩
    · cases fields with
      | nil => exact absurd rfl hne
      | cons f fs =>
        refine ⟨f, by simp, ?_⟩
        have h1 : f.alignment ≤ (compute_layout (f :: fs)).total_alignment := by
          rw [compute_layout_total_alignment]
          exact foldl_max_mem_le (f :: fs) 1 f (by simp)
        have h2 : 0 < f.alignment := align_pos_of_pow2 _ hA f (by simp)
        rw [compute_layout_total_alignment, h]
        rw [compute_layout_total_alignment, h] at h1
        omega
    · exact ⟨f, hf, by rw [hta, h]⟩
  · rw [hts, hta]; exact roundUp_mod _ _
  · intro p hp
    rw [compute_layout_fields] at hp
    have hend := finalCursor_last fields 0 p hp
    have hpos : 0 < fields.foldl (fun a f => max a f.alignment) 1 := by
      have := foldl_max_le_init fields 1; omega
    constructor
    · rw [hts, ← hend]
      exact le_roundUp _ _ hpos
    · intro m hm hmod
      rw [hta] at hmod
      rw [hts]
      exact roundUp_min _ _ m hpos (by rw [hend]; exact hm) hmod

/-- C5 witness: the trailing-padding invariant on the `human_t` layout. -/
theorem claim_C5_w :
    1 ≤ (compute_layout humanFields).total_alignment ∧
    (compute_layout humanFields).total_size
      % (compute_layout humanFields).total_alignment = 0 := by
  have h := claim_C5 humanFields humanFields_pow2
  exact ⟨h.1, h.2.2.2.2.1⟩

/-- C6: when `render` succeeds on a well-formed layout, the diagram has one
tag per byte of `[0, total_size)` — the marker of the unique field covering
that byte, or the padding marker when no field covers it — and each field's
marker tags exactly `size` bytes. -/
theorem claim_C6 (r : LayoutResult) (w : Nat) (m : List Char)
    (hv : ValidLayout r) (hr : render w r = .ok m) :
    m.length = r.total_size ∧
    (∀ i, i < r.total_size →
      (∃ p ∈ r.fields, covers p i ∧ m.getD i padMarker = p.spec.marker ∧
        ∀ q ∈ r.fields, covers q i → q = p) ∨
      ((∀ p ∈ r.fields, ¬ covers p i) ∧ m.getD i padMarker = padMarker)) ∧
    (∀ p ∈ r.fields, m.count p.spec.marker = p.spec.size) := by
  have hm : m = byteMap r := by
    rw [render] at hr
    by_cases h1 : r.total_size > w
    · rw [if_pos h1] at hr; exact Except.noConfusion hr
    · rw [if_neg h1] at hr
      by_cases h2 : anyOverlap r.fields
      · rw [if_pos h2] at hr; exact Except.noConfusion hr
      · rw [if_neg h2] at hr; exact (Except.ok.inj hr).symm
  subst hm
  refine ⟨byteMap_length r, ?_, fun p hp => byteMap_count r hv hp⟩
  intro i hi
  by_cases hcov : ∃ p ∈ r.fields, covers p i
  · obtain ⟨p, hpm, hpc⟩ := hcov
    left
    exact ⟨p, hpm, hpc, by rw [byteMap_getD r hv.2.1 i hi, tagAt_eq_marker r hv hpm hpc],
      fun q hq hqc => covers_unique r hv hq hpm hqc hpc⟩
  · push_neg at hcov
    right
    exact ⟨hcov, by rw [byteMap_getD r hv.2.1 i hi, tagAt_eq_pad r.fields hcov]⟩

/-- C6 witness: the renderer succeeds on the `human_t` layout with a
32-byte diagram. -/
theorem claim_C6_w : (byteMap humanLayout).length = humanLayout.total_size :=
  (claim_C6 humanLayout 32 (byteMap humanLayout) (by decide) rfl).1

/-- C7: the empty field list yields total size 0 and total alignment 1,
and rendering it gives the empty diagram, which contains no padding
bytes. -/
theorem claim_C7 :
    (compute_layout []).total_size = 0 ∧
    (compute_layout []).total_alignment = 1 ∧
    (∀ w, render w (compute_layout []) = .ok []) ∧
    ([] : List Char).count padMarker = 0 := by
  refine ⟨rfl, rfl, ?_, rfl⟩
  intro w
  simp [render, compute_layout, byteMap, anyOverlap, roundUp, ceilDiv]

/-- C8 counterexample: an input whose two tagged ranges intersect at
byte 4 but whose `total_size` (100) exceeds the configured width (32), so
`render` reports a CapacityError — not an OverlapError as the claim, read
over every input, would require. -/
theorem claim_C8_cex :
    covers (overlapLayout.fields.getD 0 default) 4 ∧
    covers (overlapLayout.fields.getD 1 default) 4 ∧
    render 32 overlapLayout = .error .CapacityError ∧
    render 32 overlapLayout ≠ .error .OverlapError := by
  have hr : render 32 overlapLayout = Except.error RenderError.CapacityError := rfl
  refine ⟨by decide, by decide, hr, ?_⟩
  intro h
  exact RenderError.noConfusion (Except.error.inj (hr.symm.trans h))

theorem anyOverlap_of_intersect (l : List PlacedField)
    (hx : ∃ i j, ∃ hi : i < l.length, ∃ hj : j < l.length,
      i ≠ j ∧ ∃ b, covers (l.get ⟨i, hi⟩) b ∧ covers (l.get ⟨j, hj⟩) b) :
    anyOverlap l = true := by
  obtain ⟨i, j, hi, hj, hne, b, hci, hcj⟩ := hx
  by_contra hfalse
  have hpw := (anyOverlap_eq_false_iff l).mp (Bool.eq_false_iff.mpr hfalse)
  have hpw' := List.pairwise_iff_getElem.mp hpw
  simp only [List.get_eq_getElem] at hci hcj
  rcases hne.lt_or_lt with hlt | hlt
  · have hff := hpw' i j hi hj hlt
    rw [rangesOverlap_of_covers hci hcj] at hff
    exact Bool.noConfusion hff
  · have hff := hpw' j i hj hi hlt
    rw [rangesOverlap_of_covers hcj hci] at hff
    exact Bool.noConfusion hff

/-- C8, amended: within the configured width, `render` fails fast with an
OverlapError whenever two placed fields' byte ranges intersect (an
oversized input is reported as a CapacityError before rendering); and on
every input `render` yields either a complete diagram of length
`total_size` or an explicit error — never a partial diagram. -/
theorem claim_C8 (r : LayoutResult) (w : Nat) :
    (r.total_size ≤ w →
      (∃ i j, ∃ hi : i < r.fields.length, ∃ hj : j < r.fields.length,
        i ≠ j ∧ ∃ b, covers (r.fields.get ⟨i, hi⟩) b ∧ covers (r.fields.get ⟨j, hj⟩) b) →
      render w r = .error .OverlapError) ∧
    ((∃ m, render w r = .ok m ∧ m.length = r.total_size) ∨
      (∃ e, render w r = .error e)) := by
  constructor
  · intro hcap hx
    have hov := anyOverlap_of_intersect r.fields hx
    rw [render, if_neg (by omega), if_pos hov]
  · rw [render]
    by_cases h1 : r.total_size > w
    · rw [if_pos h1]; right; exact ⟨_, rfl⟩
    · rw [if_neg h1]
      by_cases h2 : anyOverlap r.fields
      · rw [if_pos h2]; right; exact ⟨_, rfl⟩
      · rw [if_neg h2]; left; exact ⟨byteMap r, rfl, byteMap_length r⟩

/-- C8 witness: two intersecting ranges inside the configured width are
reported as an OverlapError. -/
theorem claim_C8_w : render 32 overlapSmall = .error .OverlapError :=
  (claim_C8 overlapSmall 32).1 (by decide)
    ⟨0, 1, by decide, by decide, by decide, 4, by decide, by decide⟩

/-- C9: when `total_size` exceeds the configured maximum diagram width,
`render` reports a CapacityError and never produces a diagram for that
record (the numeric layout result is untouched: `render` is a pure
function of it). -/
theorem claim_C9 (r : LayoutResult) (w : Nat) (h : w < r.total_size) :
    render w r = .error .CapacityError ∧ ∀ m, render w r ≠ .ok m := by
  have hr : render w r = .error .CapacityError := by rw [render, if_pos (by omega)]
  refine ⟨hr, fun m hm => ?_⟩
  rw [hr] at hm
  exact Except.noConfusion hm

/-- C9 witness: a 100-byte layout against the 32-column width. -/
theorem claim_C9_w : render 32 overlapLayout = .error .CapacityError :=
  (claim_C9 overlapLayout 32 (by decide)).1

set_option maxRecDepth 4000 in
/-- C10: in `visualize`, the struct size is exactly the 32 bytes of the
`mem` buffer, each field's range ends at or before byte 32, every index the
function writes is strictly below 32, and the buffer is exactly filled —
no byte is left holding the `'.'` placeholder. -/
theorem claim_C10 :
    humanLayout.total_size = 32 ∧
    (∀ p ∈ humanLayout.fields, p.offset + p.spec.size ≤ 32) ∧
    (∀ i ∈ visualizeWriteIndices, i < 32) ∧
    visualizeMem.length = 32 ∧
    ('.' ∉ visualizeMem) := by
  decide

end MemLayout
